import Mathlib

/-!
# pgfast — verification of the migration engine against its specification

This file shallowly embeds the pgfast schema-migration engine and settles the
spec claims against it.

Two layers are embedded:

* **Source layer** (`Migration`, `_discover_migrations`, `migrate_up`,
  `migrate_down`, `get_current_version`, `DatabaseConfig` normalization):
  translated from the files under `src/src/pgfast/` (`schema.py`,
  `migrations.py`, `config.py`).  Database effects are modelled by an explicit
  state (`DbS`): the `_pgfast_migrations` tracking table is a list of rows and
  the user schema is an abstract type `U` acted on by an SQL oracle
  `execSql : String → U → SqlOutcome U`; a `.fail` outcome stands for an
  `asyncpg.PostgresError`.  A transaction is all-or-nothing: the state is only
  replaced when every statement inside it succeeded.

* **Spec-modelled layer** (`RichMigration`, `topo_sort`, `schema_up`,
  `schema_down`, `richDiscover`): the repository's current engine — the one
  its own test-suite (`tests/integration/test_migrations.py`,
  `tests/unit/test_migration_model.py`) and its CLI (`src/pgfast/cli.py`) are
  written against, with dependency declarations, Kahn topological sorting,
  checksums, `force`, `DependencyError` and `ChecksumError` — is not present
  under `src/` (the `schema.py` / `migrations.py` / `exceptions.py` snapshots
  there predate it: they export neither `schema_up` nor those exception
  classes, so the shipped tests cannot even import against them).  Those
  definitions are therefore modelled from the spec, as marked by their doc
  comments.
-/

namespace Pgfast

deriving instance DecidableEq for Except

/-- Error taxonomy of `src/src/pgfast/exceptions.py`, restricted to the kinds
the claims touch.  `migrationE` carries the offending version and the chained
cause (`raise MigrationError(...) from e`) when there are ones. -/
inductive PgfastErr where
  | schemaE (msg : String)
  | migrationE (msg : String) (version : Option Int) (cause : Option String)
  | dependencyE (msg : String)
  | checksumE (versions : List Int)
deriving DecidableEq

/-- Outcome of handing one SQL batch to the database: the new user-schema
state, or a `PostgresError` message. -/
inductive SqlOutcome (U : Type) where
  | ok (db : U)
  | fail (msg : String)
deriving DecidableEq

/-- `s.startswith(pre)` on char lists. -/
def startsWithList : List Char → List Char → Bool
  | [], _ => true
  | _ :: _, [] => false
  | p :: ps, c :: cs => p == c && startsWithList ps cs

/-- The value of a decimal digit character. -/
def digitVal (c : Char) : Option Nat :=
  if c == '0' then some 0 else if c == '1' then some 1
  else if c == '2' then some 2 else if c == '3' then some 3
  else if c == '4' then some 4 else if c == '5' then some 5
  else if c == '6' then some 6 else if c == '7' then some 7
  else if c == '8' then some 8 else if c == '9' then some 9 else none

/-- `int(s, 10)` on a digit string (big-endian), `none` on a non-digit. -/
def parseDigits (l : List Char) : Option Nat :=
  match l.mapM digitVal with
  | none => none
  | some ds => some (ds.foldl (fun a d => 10 * a + d) 0)

/-- `s.endswith(suffix)` on char lists. -/
def endsWithList (suffix l : List Char) : Bool :=
  startsWithList suffix.reverse l.reverse

/-- Python's `s.split(sep)` for a one-character separator, on char lists
(an accumulator-based structural recursion). -/
def splitOnCharAux (sep : Char) : List Char → List Char → List (List Char)
  | [], acc => [acc.reverse]
  | c :: t, acc =>
      if c == sep then acc.reverse :: splitOnCharAux sep t []
      else splitOnCharAux sep t (c :: acc)

/-- Python's `s.split(sep)` for a one-character separator. -/
def splitOnChar (sep : Char) (l : List Char) : List (List Char) :=
  splitOnCharAux sep l []

/-- `sep.join(parts)` on char lists. -/
def intercalateChar (sep : List Char) : List (List Char) → List Char
  | [] => []
  | [p] => p
  | p :: rest => p ++ sep ++ intercalateChar sep rest

/-- Embeds `pgfast.migrations.Migration` (src/src/pgfast/migrations.py):
version, name and the paths of the up/down artifacts (Python strings are
`List Char`). -/
structure Migration where
  version : Int
  name : List Char
  up_file : List Char
  down_file : List Char
deriving DecidableEq

/-- Database state seen by the source-layer engine: the abstract user schema
plus the rows of the `_pgfast_migrations` tracking table, `(version, name)`. -/
structure DbS (U : Type) where
  user : U
  tracking : List (Int × List Char)
deriving DecidableEq

/-- The engine's environment: the filesystem (`readFile f = none` means the
file does not exist) and the database's semantics for executing one SQL
batch against the user schema. -/
structure Env (U : Type) where
  readFile : List Char → Option (List Char)
  execSql : List Char → U → SqlOutcome U

/-- Result of one engine call: the versions processed so far, the database
state left behind (each migration committed its own transaction), and the
exception that aborted the call, if any. -/
structure RunRes (S : Type) where
  versions : List Int
  state : S
  error : Option PgfastErr
deriving DecidableEq

/-- `int(version_str)` on the digit strings that occur as filename version
prefixes (empty or non-digit input raises `ValueError` in the source,
`none` here). -/
def pyParseInt (s : List Char) : Option Int :=
  if s.isEmpty then none else (parseDigits s).map Int.ofNat

/-- Parses one `*_up.sql` filename exactly as the loop body of
`SchemaManager._discover_migrations` does: split the stem on `_`, demand at
least three parts, take the leading part as the version, join the middle
parts as the name, and derive the sibling down-file name. -/
def parseUpFile (f : List Char) : Except PgfastErr Migration :=
  let stem := f.take (f.length - 4)
  let parts := splitOnChar '_' stem
  if parts.length < 3 then
    .error (.migrationE "Invalid migration filename" none none)
  else
    let version_str := parts.headD []
    let name := intercalateChar ['_'] ((parts.drop 1).dropLast)
    match pyParseInt version_str with
    | none => .error (.migrationE "Invalid version in filename" none none)
    | some version =>
        .ok { version := version, name := name, up_file := f,
              down_file := version_str ++ ['_'] ++ name ++ "_down.sql".toList }

/-- The discovery loop of `_discover_migrations` over the globbed files. -/
def discoverLoop : List (List Char) → Except PgfastErr (List Migration)
  | [] => .ok []
  | f :: rest =>
      match parseUpFile f with
      | .error e => .error e
      | .ok m =>
          match discoverLoop rest with
          | .error e => .error e
          | .ok ms => .ok (m :: ms)

/-- Embeds `SchemaManager._discover_migrations` (src/src/pgfast/schema.py).
The migrations directory is represented by whether it exists and the list of
its entries; `glob ("*_up.sql")` keeps the names with that suffix. -/
def _discover_migrations (dirExists : Bool) (files : List (List Char)) :
    Except PgfastErr (List Migration) :=
  if !dirExists then
    .error (.schemaE "Migrations directory not found")
  else
    match discoverLoop (files.filter (fun f => endsWithList "_up.sql".toList f)) with
    | .error e => .error e
    | .ok ms => .ok (List.insertionSort (fun a b => a.version ≤ b.version) ms)

/-- `SELECT version FROM _pgfast_migrations ORDER BY version`
(`get_applied_migrations`). -/
def get_applied_migrations {U : Type} (st : DbS U) : List Int :=
  List.insertionSort (· ≤ ·) (st.tracking.map Prod.fst)

/-- `SELECT MAX(version)`: the SQL aggregate over the tracking rows. -/
def maxVersion : List Int → Option Int
  | [] => none
  | v :: t => some (t.foldl max v)

/-- Embeds `SchemaManager.get_current_version`: the maximum applied version,
or 0 when the tracking table is empty. -/
def get_current_version {U : Type} (st : DbS U) : Int :=
  match maxVersion (st.tracking.map Prod.fst) with
  | none => 0
  | some v => v

/-- Python's `l[i:]` slice on integer lists (negative `i` counts from the
end; `l[-0:]` is `l[0:]`, the whole list). -/
def pySliceFrom (l : List Int) (i : Int) : List Int :=
  if i < 0 then l.drop (max ((l.length : Int) + i) 0).toNat
  else l.drop (min i (l.length : Int)).toNat

/-- The transaction body of one forward migration in `migrate_up`: execute
the up SQL, then `INSERT INTO _pgfast_migrations (version, name)`.  The
insert hits the `version` primary key if the row exists.  Any failure aborts
the whole transaction, so no part of the candidate state is kept. -/
def txUp {U : Type} (env : Env U) (m : Migration) (sql : List Char)
    (st : DbS U) : DbS U ⊕ String :=
  match env.execSql sql st.user with
  | .fail cause => .inr cause
  | .ok user' =>
      if (st.tracking.map Prod.fst).contains m.version then
        .inr "duplicate key value violates unique constraint"
      else
        .inl { user := user', tracking := st.tracking ++ [(m.version, m.name)] }

/-- The `for migration in pending` loop of `migrate_up`: each migration runs
in its own transaction; a missing up file or a database error raises a
`MigrationError` and leaves the already-committed migrations in place. -/
def runUpS {U : Type} (env : Env U) : List Migration → DbS U → RunRes (DbS U)
  | [], st => ⟨[], st, none⟩
  | m :: rest, st =>
      match env.readFile m.up_file with
      | none =>
          ⟨[], st, some (.migrationE "Migration up file not found" (some m.version) none)⟩
      | some sql =>
          match txUp env m sql st with
          | .inr cause =>
              ⟨[], st,
                some (.migrationE "Failed to apply migration" (some m.version) (some cause))⟩
          | .inl st' =>
              let r := runUpS env rest st'
              ⟨m.version :: r.versions, r.state, r.error⟩

/-- Embeds `SchemaManager.migrate_up` (src/src/pgfast/schema.py): discover,
filter out applied versions, return early when nothing is pending, filter to
the target, then apply one transaction per migration.
(`_ensure_migrations_table` has no effect in the model: the tracking table is
always part of `DbS`.) -/
def migrate_up {U : Type} (env : Env U) (dirExists : Bool)
    (files : List (List Char)) (target : Option Int) (st : DbS U) :
    Except PgfastErr (RunRes (DbS U)) :=
  match _discover_migrations dirExists files with
  | .error e => .error e
  | .ok ms =>
      let applied := get_applied_migrations st
      let pending := ms.filter (fun m => !applied.contains m.version)
      if pending.isEmpty then .ok ⟨[], st, none⟩
      else
        let pending := match target with
          | some t => pending.filter (fun m => m.version ≤ t)
          | none => pending
        .ok (runUpS env pending st)

/-- `migration_map.get(version)` where `migration_map` is the dict built by
`{m.version: m for m in all_migrations}` — a later migration with the same
version overwrites an earlier one, hence the reversed search. -/
def migMapGet (ms : List Migration) (v : Int) : Option Migration :=
  ms.reverse.find? (fun m => m.version == v)

/-- The transaction body of one rollback in `migrate_down`: execute the down
SQL, then `DELETE FROM _pgfast_migrations WHERE version = $1`. -/
def txDown {U : Type} (env : Env U) (v : Int) (sql : List Char)
    (st : DbS U) : DbS U ⊕ String :=
  match env.execSql sql st.user with
  | .fail cause => .inr cause
  | .ok user' =>
      .inl { user := user', tracking := st.tracking.filter (fun r => !(r.1 == v)) }

/-- The `for version in to_rollback` loop of `migrate_down`. -/
def runDownS {U : Type} (env : Env U) (ms : List Migration) :
    List Int → DbS U → RunRes (DbS U)
  | [], st => ⟨[], st, none⟩
  | v :: rest, st =>
      match migMapGet ms v with
      | none =>
          ⟨[], st, some (.migrationE "Migration files not found for version" (some v) none)⟩
      | some m =>
          match env.readFile m.down_file with
          | none =>
              ⟨[], st, some (.migrationE "Migration down file not found" (some v) none)⟩
          | some sql =>
              match txDown env v sql st with
              | .inr cause =>
                  ⟨[], st,
                    some (.migrationE "Failed to rollback migration" (some v) (some cause))⟩
              | .inl st' =>
                  let r := runDownS env ms rest st'
                  ⟨v :: r.versions, r.state, r.error⟩

/-- Embeds `SchemaManager.migrate_down` (src/src/pgfast/schema.py): pick the
versions to roll back — every applied version above `target` when a target is
given, otherwise the last `steps` applied versions (`applied[-steps:]`),
newest first — then run one transaction per rollback. -/
def migrate_down {U : Type} (env : Env U) (dirExists : Bool)
    (files : List (List Char)) (target : Option Int) (steps : Int) (st : DbS U) :
    Except PgfastErr (RunRes (DbS U)) :=
  let applied := get_applied_migrations st
  if applied.isEmpty then .ok ⟨[], st, none⟩
  else
    let to_rollback := match target with
      | some t => applied.reverse.filter (fun v => t < v)
      | none => (pySliceFrom applied (-steps)).reverse
    if to_rollback.isEmpty then .ok ⟨[], st, none⟩
    else
      match _discover_migrations dirExists files with
      | .error e => .error e
      | .ok ms => .ok (runDownS env ms to_rollback st)

/-! ## Spec-modelled layer: the current engine, absent from `src/`

The definitions below carry `Modelled from the spec:` doc comments.  They
stand for the repository's current `Migration` record and `SchemaManager`
(`schema_up` / `schema_down` with dependencies, checksums and `force`), which
the shipped tests and CLI use but whose module snapshots under `src/` predate.
-/

/-- Modelled from the spec: the current Migration Record (spec §3) — version,
name, the declared dependencies parsed from the `depends_on:` headers, and the
(current) contents of both artifacts.  The artifact bodies are carried inline,
standing for what reading the files returns at plan time. -/
structure RichMigration where
  version : Int
  name : String
  deps : List Int
  upSql : String
  downSql : String
deriving DecidableEq

/-- Modelled from the spec: the checksum of a migration (spec §4.3) — SHA-256
over `up_bytes || 0x00 || down_bytes`.  The hash itself is modelled by the
injective pre-image `up ++ "\x00" ++ down`: the spec's separator argument
(preventing boundary collisions) carries over, and every claim only needs
that the checksum is deterministic, content-only, and changes when an
artifact changes. -/
def calculate_checksum (up down : String) : String :=
  up ++ "\x00" ++ down

/-- Database state for the current engine: the tracking table stores
`(version, name, checksum)` (spec §3, applied-migration row). -/
structure DbR (U : Type) where
  user : U
  tracking : List (Int × String × String)
deriving DecidableEq

/-- Versions declared by the tracking table (the applied set). -/
def appliedVersions {U : Type} (st : DbR U) : List Int :=
  st.tracking.map (fun r => r.1)

/-- Modelled from the spec: current version on the rich tracking table
(same `SELECT MAX(version)` contract as the source layer). -/
def richCurrentVersion {U : Type} (st : DbR U) : Int :=
  match maxVersion (appliedVersions st) with
  | none => 0
  | some v => v

/-- A migration is ready (in-degree zero) for Kahn's algorithm when none of
its declared dependencies is still among the remaining migrations. -/
def ready (rem : List RichMigration) (m : RichMigration) : Bool :=
  m.deps.all (fun d => rem.all (fun x => !(x.version == d)))

/-- The lowest-version element of a list of migrations (Kahn's deterministic
tie-break, spec §4.2). -/
def minByVersion : List RichMigration → Option RichMigration
  | [] => none
  | m :: rest =>
      match minByVersion rest with
      | none => some m
      | some m' => if m.version ≤ m'.version then some m else some m'

/-- The ready node with the lowest version, if any. -/
def pickReady (rem : List RichMigration) : Option RichMigration :=
  minByVersion (rem.filter (ready rem))

/-- Modelled from the spec: Kahn's algorithm (spec §4.2) with fuel for
structural recursion — repeatedly remove the lowest-version ready node; if
none is ready while migrations remain, they participate in a cycle. -/
def kahnFuel : Nat → List RichMigration → Except PgfastErr (List RichMigration)
  | _, [] => .ok []
  | 0, _ :: _ => .error (.dependencyE "Circular dependency detected")
  | fuel + 1, rem@(_ :: _) =>
      match pickReady rem with
      | none => .error (.dependencyE "Circular dependency detected")
      | some m =>
          match kahnFuel fuel (rem.erase m) with
          | .error e => .error e
          | .ok rest => .ok (m :: rest)

/-- Modelled from the spec: the topological sort of a migration set
(spec §4.2). -/
def topo_sort (ms : List RichMigration) : Except PgfastErr (List RichMigration) :=
  kahnFuel ms.length ms

/-- Modelled from the spec: dependency validation (spec §3 and §4.2) — every
declared dependency must resolve to a known migration other than the
declaring one (self-loops are caught here), else
`DependencyError: depends on unknown migration`. -/
def validate_dependencies (ms : List RichMigration) : Option PgfastErr :=
  if ms.all (fun m => m.deps.all (fun d =>
      !(d == m.version) && (ms.map (fun x => x.version)).contains d)) then
    none
  else
    some (.dependencyE "depends on unknown migration")

/-- Modelled from the spec: checksum validation during forward apply
(spec §4.4 step 3) — for each applied version whose migration is still
discoverable, recompute the checksum and compare it with the stored one;
collect the mismatching versions.  An applied version with no discovered
migration is skipped. -/
def invalidChecksums (ms : List RichMigration)
    (tracking : List (Int × String × String)) : List Int :=
  tracking.filterMap (fun row =>
    match ms.find? (fun m => m.version == row.1) with
    | none => none
    | some m =>
        if calculate_checksum m.upSql m.downSql == row.2.2 then none
        else some row.1)

/-- One forward transaction of the current engine: execute the up SQL, then
insert the tracking row with the computed checksum; all-or-nothing. -/
def txUpR {U : Type} (exec : String → U → SqlOutcome U) (m : RichMigration)
    (st : DbR U) : DbR U ⊕ String :=
  match exec m.upSql st.user with
  | .fail cause => .inr cause
  | .ok user' =>
      if (appliedVersions st).contains m.version then
        .inr "duplicate key value violates unique constraint"
      else
        .inl { user := user',
               tracking := st.tracking ++
                 [(m.version, m.name, calculate_checksum m.upSql m.downSql)] }

/-- The forward loop of the current engine (spec §4.4 step 6): one
transaction per migration, fail fast on error, keep earlier commits. -/
def runUpR {U : Type} (exec : String → U → SqlOutcome U) :
    List RichMigration → DbR U → RunRes (DbR U)
  | [], st => ⟨[], st, none⟩
  | m :: rest, st =>
      match txUpR exec m st with
      | .inr cause =>
          ⟨[], st,
            some (.migrationE "Failed to apply migration" (some m.version) (some cause))⟩
      | .inl st' =>
          let r := runUpR exec rest st'
          ⟨m.version :: r.versions, r.state, r.error⟩

/-- Modelled from the spec: the current engine's forward apply
(`schema_up`, spec §4.4 forward protocol): checksum validation unless
`force`, dependency validation, topological sort, pending = ordered minus
applied, target filtering after the sort, then the transactional loop. -/
def schema_up {U : Type} (exec : String → U → SqlOutcome U)
    (ms : List RichMigration) (force : Bool) (target : Option Int)
    (st : DbR U) : RunRes (DbR U) :=
  let invalid := if force then [] else invalidChecksums ms st.tracking
  if !invalid.isEmpty then ⟨[], st, some (.checksumE invalid)⟩
  else
    match validate_dependencies ms with
    | some e => ⟨[], st, some e⟩
    | none =>
        match topo_sort ms with
        | .error e => ⟨[], st, some e⟩
        | .ok ordered =>
            let applied := appliedVersions st
            let pending := ordered.filter (fun m => !applied.contains m.version)
            let pending := match target with
              | some t => pending.filter (fun m => m.version ≤ t)
              | none => pending
            runUpR exec pending st

/-- One rollback transaction of the current engine: execute the down SQL,
then delete the tracking row; all-or-nothing. -/
def txDownR {U : Type} (exec : String → U → SqlOutcome U) (m : RichMigration)
    (st : DbR U) : DbR U ⊕ String :=
  match exec m.downSql st.user with
  | .fail cause => .inr cause
  | .ok user' =>
      .inl { user := user',
             tracking := st.tracking.filter (fun r => !(r.1 == m.version)) }

/-- The rollback loop of the current engine (spec §4.4 reverse protocol
step 3). -/
def runDownR {U : Type} (exec : String → U → SqlOutcome U) :
    List RichMigration → DbR U → RunRes (DbR U)
  | [], st => ⟨[], st, none⟩
  | m :: rest, st =>
      match txDownR exec m st with
      | .inr cause =>
          ⟨[], st,
            some (.migrationE "Failed to rollback migration" (some m.version) (some cause))⟩
      | .inl st' =>
          let r := runDownR exec rest st'
          ⟨m.version :: r.versions, r.state, r.error⟩

/-- Modelled from the spec: the current engine's reverse apply
(`schema_down`, spec §4.4 reverse protocol): with `target`, roll back every
applied version above it, else the last `steps` applied versions
(`applied[-steps:]`), ordered by reverse topological order so dependents
precede their dependencies, one transaction per rollback. -/
def schema_down {U : Type} (exec : String → U → SqlOutcome U)
    (ms : List RichMigration) (target : Option Int) (steps : Int)
    (st : DbR U) : RunRes (DbR U) :=
  let applied := List.insertionSort (· ≤ ·) (appliedVersions st)
  if applied.isEmpty then ⟨[], st, none⟩
  else
    let selected := match target with
      | some t => applied.filter (fun v => t < v)
      | none => pySliceFrom applied (-steps)
    if selected.isEmpty then ⟨[], st, none⟩
    else
      match topo_sort ms with
      | .error e => ⟨[], st, some e⟩
      | .ok ordered =>
          runDownR exec ((ordered.filter (fun m => selected.contains m.version)).reverse) st

/-- One filename parsed against the migration filename grammar (spec §6):
`<version>_<name>_(up|down).(sql|py)` — version digits, nonempty name, a
direction flag (`true` for up) and the artifact kind (the extension). -/
def parseRichFilename (f : List Char) : Option (Int × List Char × Bool × List Char) :=
  let checkExt := fun (ext : List Char) =>
    if endsWithList ("_up.".toList ++ ext) f then some (true, "_up.".toList ++ ext)
    else if endsWithList ("_down.".toList ++ ext) f then some (false, "_down.".toList ++ ext)
    else none
  match (checkExt "sql".toList).orElse (fun _ => checkExt "py".toList) with
  | none => none
  | some su =>
      let rest := f.take (f.length - su.2.length)
      match splitOnChar '_' rest with
      | [] => none
      | vs :: nameParts =>
          if nameParts.isEmpty then none
          else
            match pyParseInt vs with
            | none => none
            | some v =>
                let ext := if endsWithList "sql".toList f then "sql".toList
                  else "py".toList
                some (v, intercalateChar ['_'] nameParts, su.1, ext)

/-- The filenames of one root that match the migration grammar. -/
def parsedFiles (files : List (List Char)) : List (Int × List Char × Bool × List Char) :=
  files.filterMap parseRichFilename

/-- The `(version, name)` groups the matched filenames fall into. -/
def groupKeys (files : List (List Char)) : List (Int × List Char) :=
  ((parsedFiles files).map (fun p => (p.1, p.2.1))).dedup

/-- Modelled from the spec: a group is complete when it has exactly one up
and one down artifact and their kinds agree (spec §4.1). -/
def groupComplete (files : List (List Char)) (k : Int × List Char) : Bool :=
  ((parsedFiles files).filter
    (fun p => p.1 == k.1 && p.2.1 == k.2 && p.2.2.1)).length = 1 &&
  ((parsedFiles files).filter
    (fun p => p.1 == k.1 && p.2.1 == k.2 && !p.2.2.1)).length = 1 &&
  (((parsedFiles files).filter (fun p => p.1 == k.1 && p.2.1 == k.2)).map
    (fun p => p.2.2.2)).dedup.length = 1

/-- Modelled from the spec: discovery of the current engine within one root
(spec §4.1) — match filenames against the grammar, group by
`(version, name)`, require exactly one up and one down of the same kind per
group, and reject two groups that share a version
(`MigrationError: duplicate version`).  Returns the `(version, name)` records
sorted by version. -/
def richDiscover (files : List (List Char)) :
    Except PgfastErr (List (Int × List Char)) :=
  if (groupKeys files).all (groupComplete files) then
    if ((groupKeys files).map Prod.fst).Nodup then
      .ok (List.insertionSort (fun a b => a.1 ≤ b.1) (groupKeys files))
    else
      .error (.migrationE "Duplicate migration version" none none)
  else
    .error (.migrationE "Migration missing up or down file" none none)

/-! ## Source layer: `DatabaseConfig.validate_and_normalize_url`

The URL normalizer of `src/src/pgfast/config.py` is embedded over `List Char`
(Python strings), with `urllib.parse.urlparse` modelled for URLs with at most
one `@` and one `:` in the authority — the shapes the config layer documents
and the claims exercise.
-/

/-- `a` occurs strictly before `b` in the list `l`. -/
def Before (a b : Int) (l : List Int) : Prop :=
  ∃ l1 l2 l3, l = l1 ++ a :: l2 ++ b :: l3

/-- `a` is the version of a migration in `ms` that declares a dependency on
version `b`. -/
def DepRel (ms : List RichMigration) (a b : Int) : Prop :=
  ∃ m ∈ ms, m.version = a ∧ b ∈ m.deps

/-- The dependency graph of `ms` has a cycle: some version depends on itself
through one or more declared-dependency edges. -/
def HasCycle (ms : List RichMigration) : Prop :=
  ∃ v, Relation.TransGen (DepRel ms) v v

/-- The migrations carry pairwise distinct versions. -/
def NodupVersions (ms : List RichMigration) : Prop :=
  (ms.map (fun m => m.version)).Nodup

/-- The SQL oracle that always succeeds (a database on which every artifact
of the scenario executes cleanly). -/
def okExec : String → Unit → SqlOutcome Unit := fun _ u => .ok u

/-- Scenario migration A(100), no dependencies. -/
def migA : RichMigration := ⟨100, "a", [], "create table a", "drop table a"⟩

/-- Scenario migration B(200), depends on 100. -/
def migB : RichMigration := ⟨200, "b", [100], "create table b", "drop table b"⟩

/-- Scenario migration C(300), depends on 100. -/
def migC : RichMigration := ⟨300, "c", [100], "create table c", "drop table c"⟩

/-- The scenario set A(100), B(200 ↦ 100), C(300 ↦ 100). -/
def exampleSet : List RichMigration := [migA, migB, migC]

/-- The fresh rich database: nothing applied. -/
def emptyR : DbR Unit := ⟨(), []⟩

/-- The tracking row a successful forward apply of `m` records. -/
def rowOf (m : RichMigration) : Int × String × String :=
  (m.version, m.name, calculate_checksum m.upSql m.downSql)

/-- The rich database after applying the scenario set. -/
def appliedR3 : DbR Unit := ⟨(), [rowOf migA, rowOf migB, rowOf migC]⟩

/-- Source-layer scenario migration 100. -/
def migS1 : Migration :=
  ⟨100, "init".toList, "100_init_up.sql".toList, "100_init_down.sql".toList⟩

/-- Source-layer scenario migration 200 (its SQL is made to fail below). -/
def migS2 : Migration :=
  ⟨200, "posts".toList, "200_posts_up.sql".toList, "200_posts_down.sql".toList⟩

/-- A source-layer environment where every file exists (its content is its
name) and exactly the artifacts of migration 200 fail to execute. -/
def envW : Env Unit :=
  ⟨fun f => some f,
   fun s u =>
     if s == "200_posts_up.sql".toList || s == "200_posts_down.sql".toList then
       .fail "syntax error"
     else .ok u⟩

/-- A source-layer environment where every file exists and all SQL
succeeds. -/
def envOkS : Env Unit := ⟨fun f => some f, fun _ u => .ok u⟩

/-- A migration declaring a dependency on `migY` (a two-cycle). -/
def migX : RichMigration := ⟨1, "x", [2], "cx", "dx"⟩

/-- A migration declaring a dependency on `migX` (a two-cycle). -/
def migY : RichMigration := ⟨2, "y", [1], "cy", "dy"⟩

/-! ## Lemmas about the source-layer runners -/

theorem runUpS_nil {U : Type} (env : Env U) (st : DbS U) :
    runUpS env [] st = ⟨[], st, none⟩ := rfl

theorem runUpS_cons_step {U : Type} (env : Env U) {p : Migration} {psql : List Char}
    {st st' : DbS U} (l : List Migration)
    (hrf : env.readFile p.up_file = some psql)
    (htx : txUp env p psql st = .inl st') :
    runUpS env (p :: l) st =
      ⟨p.version :: (runUpS env l st').versions, (runUpS env l st').state,
        (runUpS env l st').error⟩ := by
  simp [runUpS, hrf, htx]

theorem txUp_inl_tracking {U : Type} {env : Env U} {p : Migration} {psql : List Char}
    {st st' : DbS U} (htx : txUp env p psql st = .inl st') :
    st'.tracking = st.tracking ++ [(p.version, p.name)] := by
  cases hex : env.execSql psql st.user with
  | fail c => simp only [txUp, hex] at htx; exact Sum.noConfusion htx
  | ok u' =>
      simp only [txUp, hex] at htx
      by_cases hc : ((st.tracking.map Prod.fst).contains p.version) = true
      · rw [if_pos hc] at htx; exact Sum.noConfusion htx
      · rw [if_neg hc] at htx
        injection htx with h
        rw [← h]

theorem runUpS_err_decomp {U : Type} (env : Env U) :
    ∀ (pre rest : List Migration) (m : Migration) (st : DbS U)
      (sql : List Char) (cause : String),
    (runUpS env pre st).error = none →
    env.readFile m.up_file = some sql →
    txUp env m sql (runUpS env pre st).state = .inr cause →
    runUpS env (pre ++ m :: rest) st =
      ⟨pre.map (fun x => x.version), (runUpS env pre st).state,
        some (.migrationE "Failed to apply migration" (some m.version) (some cause))⟩ := by
  intro pre
  induction pre with
  | nil =>
      intro rest m st sql cause _ h2 h3
      simp only [runUpS_nil] at h3 ⊢
      simp [runUpS, h2, h3]
  | cons p pre ih =>
      intro rest m st sql cause h1 h2 h3
      cases hrf : env.readFile p.up_file with
      | none => simp [runUpS, hrf] at h1
      | some psql =>
          cases htx : txUp env p psql st with
          | inr c => simp [runUpS, hrf, htx] at h1
          | inl st' =>
              rw [runUpS_cons_step env pre hrf htx] at h1 h3
              simp only at h1 h3
              rw [List.cons_append, runUpS_cons_step env (pre ++ m :: rest) hrf htx,
                ih rest m st' sql cause h1 h2 h3,
                runUpS_cons_step env pre hrf htx]
              simp

theorem runUpS_ok_tracking {U : Type} (env : Env U) :
    ∀ (l : List Migration) (st : DbS U),
    (runUpS env l st).error = none →
    (runUpS env l st).state.tracking =
      st.tracking ++ l.map (fun m => (m.version, m.name)) := by
  intro l
  induction l with
  | nil => intro st _; simp [runUpS_nil]
  | cons p l ih =>
      intro st h1
      cases hrf : env.readFile p.up_file with
      | none => simp [runUpS, hrf] at h1
      | some psql =>
          cases htx : txUp env p psql st with
          | inr c => simp [runUpS, hrf, htx] at h1
          | inl st' =>
              rw [runUpS_cons_step env l hrf htx] at h1 ⊢
              simp only at h1 ⊢
              rw [ih st' h1, txUp_inl_tracking htx]
              simp

theorem runDownS_nil {U : Type} (env : Env U) (ms : List Migration) (st : DbS U) :
    runDownS env ms [] st = ⟨[], st, none⟩ := rfl

theorem runDownS_cons_step {U : Type} (env : Env U) {ms : List Migration}
    {v : Int} {m : Migration} {sql : List Char} {st st' : DbS U} (l : List Int)
    (hmg : migMapGet ms v = some m)
    (hrf : env.readFile m.down_file = some sql)
    (htx : txDown env v sql st = .inl st') :
    runDownS env ms (v :: l) st =
      ⟨v :: (runDownS env ms l st').versions, (runDownS env ms l st').state,
        (runDownS env ms l st').error⟩ := by
  simp [runDownS, hmg, hrf, htx]

theorem txDown_inl_tracking {U : Type} {env : Env U} {v : Int} {sql : List Char}
    {st st' : DbS U} (htx : txDown env v sql st = .inl st') :
    st'.tracking = st.tracking.filter (fun r => !(r.1 == v)) := by
  cases hex : env.execSql sql st.user with
  | fail c => simp only [txDown, hex] at htx; exact Sum.noConfusion htx
  | ok u' =>
      simp only [txDown, hex] at htx
      injection htx with h
      rw [← h]

theorem filter_tracking_cons {β : Type} (v : Int) (l : List Int) (t : List (Int × β)) :
    (t.filter (fun r => !(r.1 == v))).filter (fun r => !(l.contains r.1)) =
      t.filter (fun r => !((v :: l).contains r.1)) := by
  rw [List.filter_filter]
  refine List.filter_congr (fun a _ => ?_)
  by_cases h : a.1 = v <;> simp [List.contains_cons, Bool.and_comm, h]

theorem runDownS_err_decomp {U : Type} (env : Env U) (ms : List Migration) :
    ∀ (pre rest : List Int) (v : Int) (m : Migration) (st : DbS U)
      (sql : List Char) (cause : String),
    (runDownS env ms pre st).error = none →
    migMapGet ms v = some m →
    env.readFile m.down_file = some sql →
    txDown env v sql (runDownS env ms pre st).state = .inr cause →
    runDownS env ms (pre ++ v :: rest) st =
      ⟨pre, (runDownS env ms pre st).state,
        some (.migrationE "Failed to rollback migration" (some v) (some cause))⟩ := by
  intro pre
  induction pre with
  | nil =>
      intro rest v m st sql cause _ hmg h2 h3
      simp only [runDownS_nil] at h3 ⊢
      simp [runDownS, hmg, h2, h3]
  | cons w pre ih =>
      intro rest v m st sql cause h1 hmg h2 h3
      cases hmg' : migMapGet ms w with
      | none => simp [runDownS, hmg'] at h1
      | some mw =>
          cases hrf : env.readFile mw.down_file with
          | none => simp [runDownS, hmg', hrf] at h1
          | some wsql =>
              cases htx : txDown env w wsql st with
              | inr c => simp [runDownS, hmg', hrf, htx] at h1
              | inl st' =>
                  rw [runDownS_cons_step env pre hmg' hrf htx] at h1 h3
                  simp only at h1 h3
                  rw [List.cons_append,
                    runDownS_cons_step env (pre ++ v :: rest) hmg' hrf htx,
                    ih rest v m st' sql cause h1 hmg h2 h3,
                    runDownS_cons_step env pre hmg' hrf htx]

theorem runDownS_ok_tracking {U : Type} (env : Env U) (ms : List Migration) :
    ∀ (l : List Int) (st : DbS U),
    (runDownS env ms l st).error = none →
    (runDownS env ms l st).state.tracking =
      st.tracking.filter (fun r => !(l.contains r.1)) := by
  intro l
  induction l with
  | nil => intro st _; simp [runDownS_nil, List.contains]
  | cons w l ih =>
      intro st h1
      cases hmg' : migMapGet ms w with
      | none => simp [runDownS, hmg'] at h1
      | some mw =>
          cases hrf : env.readFile mw.down_file with
          | none => simp [runDownS, hmg', hrf] at h1
          | some wsql =>
              cases htx : txDown env w wsql st with
              | inr c => simp [runDownS, hmg', hrf, htx] at h1
              | inl st' =>
                  rw [runDownS_cons_step env l hmg' hrf htx] at h1 ⊢
                  simp only at h1 ⊢
                  rw [ih st' h1, txDown_inl_tracking htx, filter_tracking_cons]

/-- C2.  For every migration processed by forward apply (the loop of
`migrate_up`, embedded as `runUpS`) or by reverse apply (the loop of
`migrate_down`, embedded as `runDownS`): when the migration's transaction
fails — its SQL or its tracking-table mutation errors — the call stops with a
`MigrationError` naming the offending version and chaining the underlying
cause, the database state is exactly the state after the previously committed
migrations (so no tracking-row change persists for the failing migration),
and the tracking table holds precisely the initial rows plus (respectively
minus) the rows of the migrations completed earlier in the same call. -/
theorem migration_transaction_atomicity :
    (∀ (U : Type) (env : Env U) (pre rest : List Migration) (m : Migration)
      (st : DbS U) (sql : List Char) (cause : String),
      (runUpS env pre st).error = none →
      env.readFile m.up_file = some sql →
      txUp env m sql (runUpS env pre st).state = .inr cause →
      runUpS env (pre ++ m :: rest) st =
        ⟨pre.map (fun x => x.version), (runUpS env pre st).state,
          some (.migrationE "Failed to apply migration" (some m.version) (some cause))⟩ ∧
      (runUpS env pre st).state.tracking =
        st.tracking ++ pre.map (fun x => (x.version, x.name))) ∧
    (∀ (U : Type) (env : Env U) (ms : List Migration) (pre rest : List Int)
      (v : Int) (m : Migration) (st : DbS U) (sql : List Char) (cause : String),
      (runDownS env ms pre st).error = none →
      migMapGet ms v = some m →
      env.readFile m.down_file = some sql →
      txDown env v sql (runDownS env ms pre st).state = .inr cause →
      runDownS env ms (pre ++ v :: rest) st =
        ⟨pre, (runDownS env ms pre st).state,
          some (.migrationE "Failed to rollback migration" (some v) (some cause))⟩ ∧
      (runDownS env ms pre st).state.tracking =
        st.tracking.filter (fun r => !(pre.contains r.1))) := by
  constructor
  · intro U env pre rest m st sql cause h1 h2 h3
    exact ⟨runUpS_err_decomp env pre rest m st sql cause h1 h2 h3,
      runUpS_ok_tracking env pre st h1⟩
  · intro U env ms pre rest v m st sql cause h1 hmg h2 h3
    exact ⟨runDownS_err_decomp env ms pre rest v m st sql cause h1 hmg h2 h3,
      runDownS_ok_tracking env ms pre st h1⟩

/-- Witness for C2: in the environment `envW` (migration 200's artifacts
fail), applying `[migS1, migS2]` commits 100, then fails on 200 with the
chained cause, leaving exactly 100's tracking row; rolling back
`[200, 100]` from a state with both rows fails on 200 and deletes nothing. -/
theorem migration_transaction_atomicity_witness :
    runUpS envW ([migS1] ++ migS2 :: []) ⟨(), []⟩ =
      ⟨[100], (runUpS envW [migS1] ⟨(), []⟩).state,
        some (.migrationE "Failed to apply migration" (some 200) (some "syntax error"))⟩ ∧
    (runUpS envW [migS1] (⟨(), []⟩ : DbS Unit)).state.tracking =
      [(100, "init".toList)] ∧
    runDownS envW [migS1, migS2] ([] ++ 200 :: [100])
      ⟨(), [(100, "init".toList), (200, "posts".toList)]⟩ =
      ⟨[], ⟨(), [(100, "init".toList), (200, "posts".toList)]⟩,
        some (.migrationE "Failed to rollback migration" (some 200) (some "syntax error"))⟩ := by
  refine ⟨?_, ?_, ?_⟩
  · have h := (migration_transaction_atomicity.1 Unit envW [migS1] [] migS2
      ⟨(), []⟩ "200_posts_up.sql".toList "syntax error"
      (by decide) (by decide) (by decide)).1
    simpa using h
  · have h := (migration_transaction_atomicity.1 Unit envW [migS1] [] migS2
      ⟨(), []⟩ "200_posts_up.sql".toList "syntax error"
      (by decide) (by decide) (by decide)).2
    simpa using h
  · have h := (migration_transaction_atomicity.2 Unit envW [migS1, migS2] [] [100] 200 migS2
      ⟨(), [(100, "init".toList), (200, "posts".toList)]⟩ "200_posts_down.sql".toList
      "syntax error" (by decide) (by decide) (by decide) (by decide)).1
    simpa using h

/-! ## Lemmas about the spec-modelled topological sort -/

theorem minByVersion_mem : ∀ {l : List RichMigration} {m : RichMigration},
    minByVersion l = some m → m ∈ l := by
  intro l
  induction l with
  | nil => intro m h; exact Option.noConfusion h
  | cons a l ih =>
      intro m h
      cases hr : minByVersion l with
      | none =>
          simp only [minByVersion, hr] at h
          injection h with h
          subst h; exact List.mem_cons_self a l
      | some m' =>
          simp only [minByVersion, hr] at h
          by_cases hle : a.version ≤ m'.version
          · rw [if_pos hle] at h; injection h with h
            subst h; exact List.mem_cons_self a l
          · rw [if_neg hle] at h; injection h with h
            subst h; exact List.mem_cons_of_mem a (ih hr)

theorem minByVersion_eq_none : ∀ {l : List RichMigration},
    minByVersion l = none → l = [] := by
  intro l h
  cases l with
  | nil => rfl
  | cons a l =>
      exfalso
      cases hr : minByVersion l with
      | none => simp only [minByVersion, hr] at h; exact Option.noConfusion h
      | some m' =>
          simp only [minByVersion, hr] at h
          by_cases hle : a.version ≤ m'.version
          · rw [if_pos hle] at h; exact Option.noConfusion h
          · rw [if_neg hle] at h; exact Option.noConfusion h

theorem pickReady_mem {rem : List RichMigration} {m : RichMigration}
    (h : pickReady rem = some m) : m ∈ rem ∧ ready rem m = true := by
  have hm := minByVersion_mem h
  rwa [List.mem_filter] at hm

theorem pickReady_none {rem : List RichMigration} (h : pickReady rem = none) :
    ∀ m ∈ rem, ready rem m = false := by
  intro m hm
  have hnil : rem.filter (ready rem) = [] := minByVersion_eq_none h
  rw [List.filter_eq_nil_iff] at hnil
  exact Bool.eq_false_iff.mpr (hnil m hm)

theorem ready_eq_true_iff {rem : List RichMigration} {m : RichMigration} :
    ready rem m = true ↔ ∀ d ∈ m.deps, ∀ x ∈ rem, ¬ x.version = d := by
  simp [ready]

theorem ready_eq_false_iff {rem : List RichMigration} {m : RichMigration} :
    ready rem m = false ↔ ∃ d ∈ m.deps, ∃ x ∈ rem, x.version = d := by
  rw [← Bool.not_eq_true, ready_eq_true_iff]
  push_neg
  simp

theorem kahnFuel_perm : ∀ (f : Nat) (rem l : List RichMigration),
    kahnFuel f rem = .ok l → l.Perm rem := by
  intro f
  induction f with
  | zero =>
      intro rem l h
      cases rem with
      | nil =>
          simp only [kahnFuel] at h
          injection h with h; subst h; rfl
      | cons a r => simp only [kahnFuel] at h; exact Except.noConfusion h
  | succ f ih =>
      intro rem l h
      cases rem with
      | nil =>
          simp only [kahnFuel] at h
          injection h with h; subst h; rfl
      | cons a r =>
          simp only [kahnFuel] at h
          cases hp : pickReady (a :: r) with
          | none => simp only [hp] at h; exact Except.noConfusion h
          | some m =>
              simp only [hp] at h
              cases hk : kahnFuel f ((a :: r).erase m) with
              | error e => simp only [hk] at h; exact Except.noConfusion h
              | ok rest =>
                  simp only [hk] at h
                  injection h with h; subst h
                  have hm : m ∈ a :: r := (pickReady_mem hp).1
                  exact ((ih _ rest hk).cons m).trans (List.perm_cons_erase hm).symm

theorem kahnFuel_err : ∀ (f : Nat) (rem : List RichMigration) (e : PgfastErr),
    kahnFuel f rem = .error e → e = .dependencyE "Circular dependency detected" := by
  intro f
  induction f with
  | zero =>
      intro rem e h
      cases rem with
      | nil => simp only [kahnFuel] at h; exact Except.noConfusion h
      | cons a r => simp only [kahnFuel] at h; injection h with h; exact h.symm
  | succ f ih =>
      intro rem e h
      cases rem with
      | nil => simp only [kahnFuel] at h; exact Except.noConfusion h
      | cons a r =>
          simp only [kahnFuel] at h
          cases hp : pickReady (a :: r) with
          | none =>
              simp only [hp] at h; injection h with h; exact h.symm
          | some m =>
              simp only [hp] at h
              cases hk : kahnFuel f ((a :: r).erase m) with
              | error e' =>
                  simp only [hk] at h; injection h with h; subst h; exact ih _ _ hk
              | ok rest => simp only [hk] at h; exact Except.noConfusion h

theorem kahnFuel_before : ∀ (f : Nat) (rem l : List RichMigration),
    kahnFuel f rem = .ok l →
    ∀ m ∈ l, ∀ d ∈ m.deps, d ∈ l.map (fun x => x.version) →
      Before d m.version (l.map (fun x => x.version)) := by
  intro f
  induction f with
  | zero =>
      intro rem l h m hm
      cases rem with
      | nil =>
          simp only [kahnFuel] at h
          injection h with h; subst h; simp at hm
      | cons a r => simp only [kahnFuel] at h; exact Except.noConfusion h
  | succ f ih =>
      intro rem l h m hm d hd hdv
      cases rem with
      | nil =>
          simp only [kahnFuel] at h
          injection h with h; subst h; simp at hm
      | cons a r =>
          simp only [kahnFuel] at h
          cases hp : pickReady (a :: r) with
          | none => simp only [hp] at h; exact Except.noConfusion h
          | some m0 =>
              simp only [hp] at h
              cases hk : kahnFuel f ((a :: r).erase m0) with
              | error e => simp only [hk] at h; exact Except.noConfusion h
              | ok rest =>
                  simp only [hk] at h
                  injection h with h; subst h
                  have hready := (pickReady_mem hp).2
                  have hperm : (m0 :: rest).Perm (a :: r) := by
                    have hm0 : m0 ∈ a :: r := (pickReady_mem hp).1
                    exact ((kahnFuel_perm f _ rest hk).cons m0).trans
                      (List.perm_cons_erase hm0).symm
                  rcases List.mem_cons.mp hm with hm | hm
                  · -- the head has no dependency inside the output at all
                    exfalso
                    subst hm
                    obtain ⟨x, hx, hxv⟩ := List.mem_map.mp hdv
                    have hxrem : x ∈ a :: r := hperm.subset hx
                    exact (ready_eq_true_iff.mp hready d hd x hxrem) hxv
                  · rcases List.mem_map.mp hdv with ⟨x, hx, hxv⟩
                    by_cases hdm0 : d = m0.version
                    · -- the dependency is the head: it is before everything
                      obtain ⟨r1, r2, hr12⟩ := List.append_of_mem hm
                      refine ⟨[], r1.map (fun x => x.version),
                        r2.map (fun x => x.version), ?_⟩
                      subst hdm0
                      simp [hr12]
                    · -- the dependency sits inside the tail: induction
                      have hdrest : d ∈ rest.map (fun x => x.version) := by
                        rcases List.mem_cons.mp hx with hx0 | hx0
                        · exact absurd (hx0 ▸ hxv.symm) hdm0
                        · exact List.mem_map.mpr ⟨x, hx0, hxv⟩
                      obtain ⟨l1, l2, l3, heq⟩ :=
                        ih _ rest hk m hm d hd hdrest
                      exact ⟨m0.version :: l1, l2, l3, by simp [heq]⟩

theorem DepRel_mono {ms' ms : List RichMigration} (hsub : ms' ⊆ ms)
    {a b : Int} (h : DepRel ms' a b) : DepRel ms a b := by
  obtain ⟨m, hm, hv, hd⟩ := h
  exact ⟨m, hsub hm, hv, hd⟩

theorem cycle_of_no_ready (rem : List RichMigration) (hne : rem ≠ [])
    (hnr : ∀ m ∈ rem, ready rem m = false) :
    ∃ v, Relation.TransGen (DepRel rem) v v := by
  have hstep : ∀ m : RichMigration, m ∈ rem →
      ∃ m', m' ∈ rem ∧ DepRel rem m.version m'.version := by
    intro m hm
    obtain ⟨d, hd, x, hx, hxv⟩ := ready_eq_false_iff.mp (hnr m hm)
    exact ⟨x, hx, ⟨m, hm, rfl, by rw [hxv]; exact hd⟩⟩
  choose g hg1 hg2 using hstep
  obtain ⟨m0, hm0⟩ := List.exists_mem_of_ne_nil rem hne
  let sq : Nat → {x : RichMigration // x ∈ rem} := fun n =>
    Nat.rec ⟨m0, hm0⟩ (fun _ p => ⟨g p.1 p.2, hg1 p.1 p.2⟩) n
  have hsstep : ∀ n, DepRel rem (sq n).1.version (sq (n + 1)).1.version :=
    fun n => hg2 (sq n).1 (sq n).2
  have hchain : ∀ i k,
      Relation.TransGen (DepRel rem) (sq i).1.version (sq (i + (k + 1))).1.version := by
    intro i k
    induction k with
    | zero => exact Relation.TransGen.single (hsstep i)
    | succ k ihk => exact Relation.TransGen.tail ihk (hsstep (i + (k + 1)))
  have hcard : (rem.toFinset).card < (Finset.univ : Finset (Fin (rem.length + 1))).card := by
    rw [Finset.card_univ, Fintype.card_fin]
    exact Nat.lt_succ_of_le rem.toFinset_card_le
  obtain ⟨i, -, j, -, hij, heq⟩ :=
    Finset.exists_ne_map_eq_of_card_lt_of_maps_to hcard
      (fun (i : Fin (rem.length + 1)) _ => List.mem_toFinset.mpr (sq i.1).2)
  have hkey : ∀ (i j : Fin (rem.length + 1)), (i : Nat) < (j : Nat) →
      (sq (i : Nat)).1 = (sq (j : Nat)).1 →
      ∃ v, Relation.TransGen (DepRel rem) v v := by
    intro i j hlt he
    refine ⟨(sq (i : Nat)).1.version, ?_⟩
    have hidx : (i : Nat) + (((j : Nat) - (i : Nat) - 1) + 1) = (j : Nat) := by omega
    have hc := hchain (i : Nat) ((j : Nat) - (i : Nat) - 1)
    rw [hidx, ← he] at hc
    exact hc
  rcases Nat.lt_or_ge (i : Nat) (j : Nat) with hlt | hge
  · exact hkey i j hlt heq
  · have hlt : (j : Nat) < (i : Nat) := by
      rcases Nat.lt_or_ge (j : Nat) (i : Nat) with h' | h'
      · exact h'
      · exact absurd (Fin.ext (Nat.le_antisymm h' hge)) hij
    exact hkey j i hlt heq.symm

theorem kahnFuel_ok_of_acyclic : ∀ (f : Nat) (rem : List RichMigration),
    rem.length ≤ f → (¬ ∃ v, Relation.TransGen (DepRel rem) v v) →
    ∃ l, kahnFuel f rem = .ok l := by
  intro f
  induction f with
  | zero =>
      intro rem hle _
      have : rem = [] := List.length_eq_zero.mp (Nat.le_zero.mp hle)
      subst this
      exact ⟨[], rfl⟩
  | succ f ih =>
      intro rem hle hac
      cases rem with
      | nil => exact ⟨[], rfl⟩
      | cons a r =>
          cases hp : pickReady (a :: r) with
          | none =>
              exact absurd
                (cycle_of_no_ready (a :: r) (List.cons_ne_nil a r) (pickReady_none hp))
                hac
          | some m =>
              have hm := (pickReady_mem hp).1
              have hlen : ((a :: r).erase m).length ≤ f := by
                rw [List.length_erase_of_mem hm]
                simp only [List.length_cons] at hle ⊢
                omega
              have hac' : ¬ ∃ v, Relation.TransGen (DepRel ((a :: r).erase m)) v v := by
                rintro ⟨v, hv⟩
                exact hac ⟨v, hv.mono (fun x y hxy =>
                  DepRel_mono (fun z hz => List.mem_of_mem_erase hz) hxy)⟩
              obtain ⟨l, hl⟩ := ih _ hlen hac'
              exact ⟨m :: l, by simp [kahnFuel, hp, hl]⟩

theorem no_cycle_of_rank (ms : List RichMigration) (rank : Int → Nat)
    (hr : ∀ m ∈ ms, ∀ d ∈ m.deps, rank d < rank m.version) :
    ¬ ∃ v, Relation.TransGen (DepRel ms) v v := by
  rintro ⟨v, hv⟩
  have hlt : ∀ a b, Relation.TransGen (DepRel ms) a b → rank b < rank a := by
    intro a b h
    induction h with
    | single h =>
        obtain ⟨m, hm, hveq, hd⟩ := h
        exact hveq ▸ hr m hm _ hd
    | tail _ h ihr =>
        obtain ⟨m, hm, hveq, hd⟩ := h
        exact lt_trans (hveq ▸ hr m hm _ hd) ihr
  exact lt_irrefl _ (hlt v v hv)

theorem validate_dependencies_eq_none {ms : List RichMigration}
    (h : validate_dependencies ms = none) :
    ∀ m ∈ ms, ∀ d ∈ m.deps,
      ¬(d = m.version) ∧ d ∈ ms.map (fun x => x.version) := by
  by_cases hc : ms.all (fun m => m.deps.all (fun d =>
      !(d == m.version) && (ms.map (fun x => x.version)).contains d)) = true
  · intro m hm d hd
    rw [List.all_eq_true] at hc
    have h1 := hc m hm
    rw [List.all_eq_true] at h1
    have h2 := h1 d hd
    rw [Bool.and_eq_true] at h2
    refine ⟨by simpa using h2.1, by simpa using h2.2⟩
  · rw [validate_dependencies, if_neg hc] at h
    exact Option.noConfusion h

theorem validate_dependencies_eq_some {ms : List RichMigration} {e : PgfastErr}
    (h : validate_dependencies ms = some e) :
    e = .dependencyE "depends on unknown migration" := by
  by_cases hc : ms.all (fun m => m.deps.all (fun d =>
      !(d == m.version) && (ms.map (fun x => x.version)).contains d)) = true
  · rw [validate_dependencies, if_pos hc] at h; exact Option.noConfusion h
  · rw [validate_dependencies, if_neg hc] at h
    injection h with h
    exact h.symm

/-- C1.  For every migration set without dependency cycles (and with
well-formed declared dependencies), the engine's topological sort succeeds
and returns a permutation of the set in which every migration appears after
all of its declared dependencies; and on the concrete scenario A(100),
B(200 depends_on 100), C(300 depends_on 100), forward apply from a fresh
database applies exactly `[100, 200, 300]` — the lowest-version tie-break
puts 200 before 300. -/
theorem topo_order_respects_dependencies :
    (∀ ms : List RichMigration,
      validate_dependencies ms = none →
      (¬ ∃ v, Relation.TransGen (DepRel ms) v v) →
      ∃ l, topo_sort ms = .ok l ∧ l.Perm ms ∧
        ∀ m ∈ ms, ∀ d ∈ m.deps,
          Before d m.version (l.map (fun x => x.version))) ∧
    ((schema_up okExec exampleSet false none emptyR).versions = [100, 200, 300] ∧
      (schema_up okExec exampleSet false none emptyR).error = none) := by
  constructor
  · intro ms hval hac
    obtain ⟨l, hl⟩ := kahnFuel_ok_of_acyclic ms.length ms (Nat.le_refl _) hac
    have hperm := kahnFuel_perm ms.length ms l hl
    refine ⟨l, hl, hperm, ?_⟩
    intro m hm d hd
    have hdv : d ∈ l.map (fun x => x.version) := by
      have : d ∈ ms.map (fun x => x.version) :=
        (validate_dependencies_eq_none hval m hm d hd).2
      exact ((hperm.map (fun x => x.version)).mem_iff).mpr this
    exact kahnFuel_before ms.length ms l hl m (hperm.mem_iff.mpr hm) d hd hdv
  · constructor <;> decide

/-- Witness for C1: the universal part instantiated on the scenario set. -/
theorem topo_order_respects_dependencies_witness :
    ∃ l, topo_sort exampleSet = .ok l ∧ l.Perm exampleSet ∧
      ∀ m ∈ exampleSet, ∀ d ∈ m.deps,
        Before d m.version (l.map (fun x => x.version)) :=
  topo_order_respects_dependencies.1 exampleSet (by decide)
    (no_cycle_of_rank exampleSet (fun v => if v = 100 then 0 else 1) (by decide))

theorem find?_version_self {ms : List RichMigration} {m : RichMigration}
    (hnd : NodupVersions ms) (hm : m ∈ ms) :
    ms.find? (fun x => x.version == m.version) = some m := by
  induction ms with
  | nil => exact absurd hm (List.not_mem_nil m)
  | cons a t ih =>
      rcases List.mem_cons.mp hm with h | h
      · subst h
        simp [List.find?]
      · have hnd' : NodupVersions t := by
          have := hnd
          rw [NodupVersions, List.map_cons, List.nodup_cons] at this
          exact this.2
        have hne : ¬(a.version == m.version) = true := by
          have hnot : a.version ∉ t.map (fun x => x.version) := by
            have := hnd
            rw [NodupVersions, List.map_cons, List.nodup_cons] at this
            exact this.1
          intro hbeq
          exact hnot (by
            rw [show a.version = m.version from by simpa using hbeq]
            exact List.mem_map.mpr ⟨m, h, rfl⟩)
        rw [List.find?]
        rw [Bool.eq_false_iff.mpr hne]
        exact ih hnd' h

theorem invalidChecksums_mem {U : Type} {ms : List RichMigration} {st : DbR U}
    {v : Int} {nm c : String} {m : RichMigration}
    (hnd : NodupVersions ms) (hrow : (v, nm, c) ∈ st.tracking)
    (hm : m ∈ ms) (hv : m.version = v)
    (hneq : calculate_checksum m.upSql m.downSql ≠ c) :
    v ∈ invalidChecksums ms st.tracking := by
  rw [invalidChecksums, List.mem_filterMap]
  refine ⟨(v, nm, c), hrow, ?_⟩
  have hfind : ms.find? (fun x => x.version == v) = some m := by
    rw [← hv]
    exact find?_version_self hnd hm
  simp only [hfind]
  rw [if_neg (by simpa using hneq)]

theorem runUpR_error_none {U : Type} (exec : String → U → SqlOutcome U)
    (hexec : ∀ s u, ∃ u', exec s u = .ok u') :
    ∀ (l : List RichMigration) (st : DbR U),
    (l.map (fun m => m.version)).Nodup →
    (∀ m ∈ l, m.version ∉ appliedVersions st) →
    (runUpR exec l st).error = none := by
  intro l
  induction l with
  | nil => intro st _ _; rfl
  | cons m l ih =>
      intro st hnd hdisj
      obtain ⟨u', hu'⟩ := hexec m.upSql st.user
      have hnotin : ((appliedVersions st).contains m.version) ≠ true := by
        intro hc
        exact hdisj m (List.mem_cons_self m l) (by simpa using hc)
      have htx : txUpR exec m st = .inl
          { user := u',
            tracking := st.tracking ++
              [(m.version, m.name, calculate_checksum m.upSql m.downSql)] } := by
        simp only [txUpR, hu']
        rw [if_neg hnotin]
      rw [runUpR]
      rw [htx]
      simp only
      refine ih _ ?_ ?_
      · rw [List.map_cons, List.nodup_cons] at hnd
        exact hnd.2
      · intro x hx
        rw [List.map_cons, List.nodup_cons] at hnd
        intro hmem
        rw [appliedVersions] at hmem
        simp only [List.map_append] at hmem
        rcases List.mem_append.mp hmem with hmem | hmem
        · exact hdisj x (List.mem_cons_of_mem m hx) hmem
        · have : x.version = m.version := by simpa using hmem
          exact hnd.1 (this ▸ List.mem_map.mpr ⟨x, hx, rfl⟩)

/-- C3.  Unless `force` is set, forward apply recomputes the checksum of
every already-applied version whose migration is still discoverable, and any
mismatch aborts the call before any SQL runs, with a `ChecksumError` listing
the offending version; the same apply with `force` skips the validation and
(dependencies being well-formed and the SQL succeeding) completes without
error. -/
theorem checksum_mismatch_blocks_unless_force :
    (∀ (U : Type) (exec : String → U → SqlOutcome U) (ms : List RichMigration)
      (target : Option Int) (st : DbR U) (v : Int) (nm c : String),
      NodupVersions ms →
      (v, nm, c) ∈ st.tracking →
      (∃ m ∈ ms, m.version = v ∧ calculate_checksum m.upSql m.downSql ≠ c) →
      ∃ bad, schema_up exec ms false target st = ⟨[], st, some (.checksumE bad)⟩ ∧
        v ∈ bad) ∧
    (∀ (U : Type) (exec : String → U → SqlOutcome U) (ms : List RichMigration)
      (target : Option Int) (st : DbR U),
      (∀ s u, ∃ u', exec s u = .ok u') →
      NodupVersions ms →
      validate_dependencies ms = none →
      (¬ ∃ v, Relation.TransGen (DepRel ms) v v) →
      (schema_up exec ms true target st).error = none) := by
  constructor
  · rintro U exec ms target st v nm c hnd hrow ⟨m, hm, hv, hneq⟩
    have hmem : v ∈ invalidChecksums ms st.tracking :=
      invalidChecksums_mem hnd hrow hm hv hneq
    have hne : invalidChecksums ms st.tracking ≠ [] := List.ne_nil_of_mem hmem
    have hcond : (!(invalidChecksums ms st.tracking).isEmpty) = true := by
      cases hinv : invalidChecksums ms st.tracking with
      | nil => exact absurd hinv hne
      | cons a t => rfl
    refine ⟨invalidChecksums ms st.tracking, ?_, hmem⟩
    simp only [schema_up, Bool.false_eq_true, if_false, hcond, if_true]
  · intro U exec ms target st hexec hnd hval hac
    obtain ⟨l, hl⟩ := kahnFuel_ok_of_acyclic ms.length ms (Nat.le_refl _) hac
    have hperm := kahnFuel_perm ms.length ms l hl
    have hms : (ms.map (fun m => m.version)).Nodup := hnd
    have hndl : (l.map (fun m => m.version)).Nodup :=
      ((hperm.map (fun m => m.version)).nodup_iff).mpr hms
    have hsub : ∀ (pending : List RichMigration),
        pending.Sublist (l.filter (fun m => !(appliedVersions st).contains m.version)) →
        (runUpR exec pending st).error = none := by
      intro pending hsubl
      refine runUpR_error_none exec hexec pending st ?_ ?_
      · exact List.Nodup.sublist
          ((hsubl.map (fun m => m.version)).trans
            ((List.filter_sublist l).map (fun m => m.version))) hndl
      · intro m hm
        have hm0 := hsubl.subset hm
        rw [List.mem_filter] at hm0
        simpa using hm0.2
    cases target with
    | none =>
        have hgoal : schema_up exec ms true none st =
            runUpR exec (l.filter (fun m => !(appliedVersions st).contains m.version)) st := by
          simp [schema_up, topo_sort, hval, hl]
        rw [hgoal]
        exact hsub _ (List.Sublist.refl _)
    | some t =>
        have hgoal : schema_up exec ms true (some t) st =
            runUpR exec
              ((l.filter (fun m => !(appliedVersions st).contains m.version)).filter
                (fun m => m.version ≤ t)) st := by
          simp [schema_up, topo_sort, hval, hl]
        rw [hgoal]
        exact hsub _ (List.filter_sublist _)

/-- Witness for C3: with A(100) applied but its stored checksum tampered,
applying the scenario set fails with a `ChecksumError` listing 100, while the
same apply with `force` completes without error. -/
theorem checksum_mismatch_blocks_unless_force_witness :
    (∃ bad, schema_up okExec exampleSet false none
        (⟨(), [(100, "a", "tampered")]⟩ : DbR Unit) =
        ⟨[], ⟨(), [(100, "a", "tampered")]⟩, some (.checksumE bad)⟩ ∧ 100 ∈ bad) ∧
    (schema_up okExec exampleSet true none
      (⟨(), [(100, "a", "tampered")]⟩ : DbR Unit)).error = none :=
  ⟨checksum_mismatch_blocks_unless_force.1 Unit okExec exampleSet none
      ⟨(), [(100, "a", "tampered")]⟩ 100 "a" "tampered"
      (by unfold NodupVersions; decide) (by decide) ⟨migA, by decide, rfl, by decide⟩,
   checksum_mismatch_blocks_unless_force.2 Unit okExec exampleSet none
      ⟨(), [(100, "a", "tampered")]⟩
      (fun _ u => ⟨u, rfl⟩) (by unfold NodupVersions; decide) (by decide)
      (no_cycle_of_rank exampleSet (fun v => if v = 100 then 0 else 1) (by decide))⟩

theorem before_indexOf_lt {a b : Int} {l : List Int} (hnd : l.Nodup)
    (h : Before a b l) : l.indexOf a < l.indexOf b := by
  obtain ⟨l1, l2, l3, rfl⟩ := h
  have hline : l1 ++ a :: l2 ++ b :: l3 = (l1 ++ a :: l2) ++ b :: l3 := by
    simp
  rw [hline] at hnd ⊢
  rw [List.nodup_append] at hnd
  have hb : b ∉ l1 ++ a :: l2 := fun hmem => hnd.2.2 hmem (List.mem_cons_self b l3)
  have ha1 : a ∉ l1 := by
    have h1 := hnd.1
    rw [List.nodup_append] at h1
    exact fun hmem => h1.2.2 hmem (List.mem_cons_self a l2)
  have hamem : a ∈ l1 ++ a :: l2 := List.mem_append_right l1 (List.mem_cons_self a l2)
  rw [List.indexOf_append_of_mem hamem, List.indexOf_append_of_not_mem hb,
    List.indexOf_append_of_not_mem ha1, List.indexOf_cons_self]
  simp only [List.length_append, List.length_cons]
  omega

/-- C4.  For every migration set containing a self-dependency, a dependency
on a version absent from the set, or a dependency cycle, forward apply stops
at plan time with a `DependencyError` and an unchanged database — no SQL is
executed (the checksum gate, which precedes dependency validation, is assumed
to pass). -/
theorem dependency_errors_block_before_sql :
    ∀ (U : Type) (exec : String → U → SqlOutcome U) (ms : List RichMigration)
      (target : Option Int) (st : DbR U),
    NodupVersions ms →
    invalidChecksums ms st.tracking = [] →
    ((∃ m ∈ ms, m.version ∈ m.deps) ∨
     (∃ m ∈ ms, ∃ d ∈ m.deps, d ∉ ms.map (fun x => x.version)) ∨
     (∃ v, Relation.TransGen (DepRel ms) v v)) →
    ∃ msg, schema_up exec ms false target st = ⟨[], st, some (.dependencyE msg)⟩ := by
  intro U exec ms target st hnd hchk hbad
  cases hv : validate_dependencies ms with
  | some e =>
      refine ⟨"depends on unknown migration", ?_⟩
      have he := validate_dependencies_eq_some hv
      subst he
      simp [schema_up, hchk, hv]
  | none =>
      have hcyc : ∃ v, Relation.TransGen (DepRel ms) v v := by
        rcases hbad with ⟨m, hm, hd⟩ | ⟨m, hm, d, hd, hnotin⟩ | hcyc
        · exact absurd rfl ((validate_dependencies_eq_none hv m hm _ hd).1)
        · exact absurd (validate_dependencies_eq_none hv m hm d hd).2 hnotin
        · exact hcyc
      cases ht : topo_sort ms with
      | ok l =>
          exfalso
          have hperm := kahnFuel_perm ms.length ms l ht
          have hms : (ms.map (fun m => m.version)).Nodup := hnd
          have hndl : (l.map (fun m => m.version)).Nodup :=
            ((hperm.map (fun m => m.version)).nodup_iff).mpr hms
          have hrank : ∀ m ∈ ms, ∀ d ∈ m.deps,
              (l.map (fun x => x.version)).indexOf d <
              (l.map (fun x => x.version)).indexOf m.version := by
            intro m hm d hd
            have hdv : d ∈ l.map (fun x => x.version) := by
              have hin := (validate_dependencies_eq_none hv m hm d hd).2
              exact ((hperm.map (fun x => x.version)).mem_iff).mpr hin
            exact before_indexOf_lt hndl
              (kahnFuel_before ms.length ms l ht m (hperm.mem_iff.mpr hm) d hd hdv)
          exact no_cycle_of_rank ms
            (fun x => (l.map (fun x => x.version)).indexOf x) hrank hcyc
      | error e =>
          refine ⟨"Circular dependency detected", ?_⟩
          have he := kahnFuel_err ms.length ms e ht
          subst he
          simp [schema_up, hchk, hv, ht]

/-- Witness for C4: the two-cycle X(1 depends_on 2), Y(2 depends_on 1) makes
forward apply fail with a `DependencyError` and leave the fresh database
untouched. -/
theorem dependency_errors_block_before_sql_witness :
    ∃ msg, schema_up okExec [migX, migY] false none emptyR =
      ⟨[], emptyR, some (.dependencyE msg)⟩ :=
  dependency_errors_block_before_sql Unit okExec [migX, migY] none emptyR
    (by unfold NodupVersions; decide) (by decide)
    (Or.inr (Or.inr ⟨1, Relation.TransGen.tail (Relation.TransGen.single
      ⟨migX, List.mem_cons_self _ _, rfl, by decide⟩)
      ⟨migY, List.mem_cons_of_mem _ (List.mem_cons_self _ _), rfl, by decide⟩⟩))

theorem map_filter_key {α : Type} (key : α → Int) (p : Int → Bool) (l : List α) :
    (l.filter (fun x => p (key x))).map key = (l.map key).filter p := by
  rw [List.filter_map]
  rfl

theorem before_filter {a b : Int} {l : List Int} {p : Int → Bool}
    (h : Before a b l) (ha : p a = true) (hb : p b = true) :
    Before a b (l.filter p) := by
  obtain ⟨l1, l2, l3, rfl⟩ := h
  exact ⟨l1.filter p, l2.filter p, l3.filter p,
    by simp [List.filter_append, List.filter_cons, ha, hb]⟩

theorem before_reverse {a b : Int} {l : List Int} (h : Before a b l) :
    Before b a l.reverse := by
  obtain ⟨l1, l2, l3, rfl⟩ := h
  exact ⟨l3.reverse, l2.reverse, l1.reverse, by simp⟩

theorem filter_mem_perm {A sel : List Int} (hA : A.Nodup) (hsel : sel.Nodup)
    (hsub : ∀ x ∈ sel, x ∈ A) :
    (A.filter (fun v => sel.contains v)).Perm sel := by
  rw [List.perm_iff_count]
  intro x
  by_cases hx : x ∈ sel
  · have hp : (sel.contains x) = true := by simpa using hx
    rw [List.count_filter hp]
    rw [List.count_eq_one_of_mem hA (hsub x hx), List.count_eq_one_of_mem hsel hx]
  · have h0 : x ∉ A.filter (fun v => sel.contains v) := by
      intro hmem
      rw [List.mem_filter] at hmem
      exact hx (by simpa using hmem.2)
    rw [List.count_eq_zero_of_not_mem h0, List.count_eq_zero_of_not_mem hx]

theorem runDownR_ok {U : Type} (exec : String → U → SqlOutcome U)
    (hexec : ∀ s u, ∃ u', exec s u = .ok u') :
    ∀ (l : List RichMigration) (st : DbR U),
    (runDownR exec l st).error = none ∧
    (runDownR exec l st).versions = l.map (fun m => m.version) ∧
    (runDownR exec l st).state.tracking =
      st.tracking.filter (fun r => !((l.map (fun m => m.version)).contains r.1)) := by
  intro l
  induction l with
  | nil =>
      intro st
      refine ⟨rfl, rfl, ?_⟩
      simp [runDownR, List.contains]
  | cons m t ih =>
      intro st
      obtain ⟨u', hu'⟩ := hexec m.downSql st.user
      have htx : txDownR exec m st =
          .inl ⟨u', st.tracking.filter (fun r => !(r.1 == m.version))⟩ := by
        simp only [txDownR, hu']
      rw [runDownR]
      rw [htx]
      simp only
      obtain ⟨h1, h2, h3⟩ := ih ⟨u', st.tracking.filter (fun r => !(r.1 == m.version))⟩
      refine ⟨h1, by rw [h2]; rfl, ?_⟩
      rw [h3]
      simp only
      rw [filter_tracking_cons]
      rfl

theorem schema_down_sorted_empty {U : Type} (exec : String → U → SqlOutcome U)
    (ms : List RichMigration) (t steps : Int) (st : DbR U)
    (h : (List.insertionSort (· ≤ ·) (appliedVersions st)).isEmpty = true) :
    schema_down exec ms (some t) steps st = ⟨[], st, none⟩ := by
  simp [schema_down, h]

theorem schema_down_selected_empty {U : Type} (exec : String → U → SqlOutcome U)
    (ms : List RichMigration) (t steps : Int) (st : DbR U)
    (h2 : (((List.insertionSort (· ≤ ·) (appliedVersions st)).filter
      (fun v => t < v))).isEmpty = true) :
    schema_down exec ms (some t) steps st = ⟨[], st, none⟩ := by
  by_cases h1 : (List.insertionSort (· ≤ ·) (appliedVersions st)).isEmpty = true
  · simp [schema_down, h1]
  · simp [schema_down, h1, h2]

theorem schema_down_run {U : Type} (exec : String → U → SqlOutcome U)
    (ms : List RichMigration) (t steps : Int) (st : DbR U)
    (h1 : (List.insertionSort (· ≤ ·) (appliedVersions st)).isEmpty = false)
    (h2 : (((List.insertionSort (· ≤ ·) (appliedVersions st)).filter
      (fun v => t < v))).isEmpty = false)
    {l : List RichMigration} (hl : topo_sort ms = .ok l) :
    schema_down exec ms (some t) steps st =
      runDownR exec
        ((l.filter (fun m =>
          (((List.insertionSort (· ≤ ·) (appliedVersions st)).filter
            (fun v => t < v))).contains m.version)).reverse) st := by
  simp [schema_down, h1, h2, hl]

/-- C5.  For a well-formed acyclic migration set, `schema_down` with a target
`t` rolls back exactly the applied versions strictly greater than `t`, in
reverse topological order — every dependent is rolled back before the
migrations it depends on; in the concrete scenario where {100, 200, 300} are
applied and 200 and 300 depend on 100, `down(target=100)` rolls back
`[300, 200]` (the set {200, 300}) and the current version becomes 100. -/
theorem rollback_above_target_reverse_topo :
    (∀ (U : Type) (exec : String → U → SqlOutcome U) (ms : List RichMigration)
      (st : DbR U) (t : Int),
      (∀ s u, ∃ u', exec s u = .ok u') →
      NodupVersions ms →
      (¬ ∃ v, Relation.TransGen (DepRel ms) v v) →
      (appliedVersions st).Nodup →
      (∀ v ∈ appliedVersions st, t < v → v ∈ ms.map (fun x => x.version)) →
      (schema_down exec ms (some t) 1 st).error = none ∧
      ((schema_down exec ms (some t) 1 st).versions).Perm
        ((appliedVersions st).filter (fun v => t < v)) ∧
      (∀ a ∈ ms, ∀ d ∈ a.deps,
        a.version ∈ (appliedVersions st).filter (fun v => t < v) →
        d ∈ (appliedVersions st).filter (fun v => t < v) →
        Before a.version d ((schema_down exec ms (some t) 1 st).versions))) ∧
    ((schema_down okExec exampleSet (some 100) 1 appliedR3).versions = [300, 200] ∧
      richCurrentVersion (schema_down okExec exampleSet (some 100) 1 appliedR3).state = 100 ∧
      (schema_down okExec exampleSet (some 100) 1 appliedR3).error = none) := by
  constructor
  · intro U exec ms st t hexec hnd hac hnds hsel
    have hpermS : (List.insertionSort (· ≤ ·) (appliedVersions st)).Perm
        (appliedVersions st) := List.perm_insertionSort _ _
    have hselperm : ((List.insertionSort (· ≤ ·) (appliedVersions st)).filter
        (fun v => t < v)).Perm ((appliedVersions st).filter (fun v => t < v)) :=
      hpermS.filter _
    by_cases h2 : (((List.insertionSort (· ≤ ·) (appliedVersions st)).filter
        (fun v => t < v))).isEmpty = true
    · -- nothing above the target: the early-return branches are a no-op
      have hnilS : ((appliedVersions st).filter (fun v => t < v)) = [] := by
        have := hselperm
        rw [List.isEmpty_iff.mp h2] at this
        exact (this.symm).eq_nil
      have hdown : schema_down exec ms (some t) 1 st = ⟨[], st, none⟩ := by
        by_cases h1 : (List.insertionSort (· ≤ ·) (appliedVersions st)).isEmpty = true
        · exact schema_down_sorted_empty exec ms t 1 st h1
        · exact schema_down_selected_empty exec ms t 1 st h2
      rw [hdown]
      refine ⟨rfl, by rw [hnilS], ?_⟩
      intro a _ d _ ha' _
      rw [hnilS] at ha'
      exact absurd ha' (List.not_mem_nil _)
    · have h1 : (List.insertionSort (· ≤ ·) (appliedVersions st)).isEmpty = false := by
        rcases Bool.eq_false_or_eq_true
          ((List.insertionSort (· ≤ ·) (appliedVersions st)).isEmpty) with h | h
        · exfalso
          rw [List.isEmpty_iff.mp h] at h2
          exact h2 rfl
        · exact h
      have h2' : (((List.insertionSort (· ≤ ·) (appliedVersions st)).filter
          (fun v => t < v))).isEmpty = false := Bool.eq_false_iff.mpr h2
      obtain ⟨l, hl⟩ := kahnFuel_ok_of_acyclic ms.length ms (Nat.le_refl _) hac
      have hperm := kahnFuel_perm ms.length ms l hl
      have hdown := schema_down_run exec ms t 1 st h1 h2' (hl : topo_sort ms = .ok l)
      obtain ⟨he, hv, -⟩ := runDownR_ok exec hexec
        ((l.filter (fun m =>
          (((List.insertionSort (· ≤ ·) (appliedVersions st)).filter
            (fun v => t < v))).contains m.version)).reverse) st
      have hvers : (schema_down exec ms (some t) 1 st).versions =
          ((l.map (fun m => m.version)).filter (fun v =>
            (((List.insertionSort (· ≤ ·) (appliedVersions st)).filter
              (fun w => t < w))).contains v)).reverse := by
        rw [hdown, hv, List.map_reverse]
        rw [map_filter_key (fun m => m.version)
          (fun v => (((List.insertionSort (· ≤ ·) (appliedVersions st)).filter
            (fun w => t < w))).contains v) l]
      have hselsub : ∀ x ∈ ((List.insertionSort (· ≤ ·) (appliedVersions st)).filter
          (fun v => t < v)), x ∈ l.map (fun m => m.version) := by
        intro x hx
        rw [List.mem_filter] at hx
        have hxS : x ∈ appliedVersions st := hpermS.subset hx.1
        have : x ∈ ms.map (fun m => m.version) := hsel x hxS (by simpa using hx.2)
        exact ((hperm.map (fun m => m.version)).mem_iff).mpr this
      have hndl : (l.map (fun m => m.version)).Nodup := by
        have hms : (ms.map (fun m => m.version)).Nodup := hnd
        exact ((hperm.map (fun m => m.version)).nodup_iff).mpr hms
      have hndsel : ((List.insertionSort (· ≤ ·) (appliedVersions st)).filter
          (fun v => t < v)).Nodup :=
        (hpermS.nodup_iff.mpr hnds).filter _
      refine ⟨by rw [hdown]; exact he, ?_, ?_⟩
      · rw [hvers]
        exact (List.reverse_perm _).trans
          ((filter_mem_perm hndl hndsel hselsub).trans hselperm)
      · intro a ha d hd ha' hd'
        have haSel : a.version ∈ ((List.insertionSort (· ≤ ·) (appliedVersions st)).filter
            (fun v => t < v)) := hselperm.mem_iff.mpr ha'
        have hdSel : d ∈ ((List.insertionSort (· ≤ ·) (appliedVersions st)).filter
            (fun v => t < v)) := hselperm.mem_iff.mpr hd'
        have hdv : d ∈ l.map (fun x => x.version) := hselsub d hdSel
        have hB : Before d a.version (l.map (fun x => x.version)) :=
          kahnFuel_before ms.length ms l hl a (hperm.mem_iff.mpr ha) d hd hdv
        have hBf : Before d a.version ((l.map (fun m => m.version)).filter (fun v =>
            (((List.insertionSort (· ≤ ·) (appliedVersions st)).filter
              (fun w => t < w))).contains v)) :=
          before_filter hB (by simpa using hdSel) (by simpa using haSel)
        rw [hvers]
        exact before_reverse hBf
  · refine ⟨by decide, by decide, by decide⟩

/-- Witness for C5: the universal part instantiated on the scenario —
rolling back above target 100 from {100, 200, 300}. -/
theorem rollback_above_target_reverse_topo_witness :
    (schema_down okExec exampleSet (some 100) 1 appliedR3).error = none ∧
    ((schema_down okExec exampleSet (some 100) 1 appliedR3).versions).Perm
      ((appliedVersions appliedR3).filter (fun v => 100 < v)) ∧
    (∀ a ∈ exampleSet, ∀ d ∈ a.deps,
      a.version ∈ (appliedVersions appliedR3).filter (fun v => 100 < v) →
      d ∈ (appliedVersions appliedR3).filter (fun v => 100 < v) →
      Before a.version d ((schema_down okExec exampleSet (some 100) 1 appliedR3).versions)) :=
  rollback_above_target_reverse_topo.1 Unit okExec exampleSet appliedR3 100
    (fun _ u => ⟨u, rfl⟩) (by unfold NodupVersions; decide)
    (no_cycle_of_rank exampleSet (fun v => if v = 100 then 0 else 1) (by decide))
    (by decide) (by decide)

/-! ## Lemmas about the URL normalizer -/

theorem isEmpty_false_of_ne_nil {α : Type} {l : List α} (h : l ≠ []) :
    l.isEmpty = false := by
  cases l with
  | nil => exact absurd rfl h
  | cons a t => rfl

/-- C6.  A second forward apply with no new migration files is a no-op: in
every state where every discovered migration version is already in the
applied set, `migrate_up` returns the empty list and leaves the tracking
table — indeed the whole database state — unchanged. -/
theorem second_migrate_up_noop :
    ∀ (U : Type) (env : Env U) (dirExists : Bool) (files : List (List Char))
      (ms : List Migration) (target : Option Int) (st : DbS U),
    _discover_migrations dirExists files = .ok ms →
    (∀ m ∈ ms, m.version ∈ st.tracking.map Prod.fst) →
    migrate_up env dirExists files target st = .ok ⟨[], st, none⟩ := by
  intro U env dirExists files ms target st hdisc happ
  have hpend : ms.filter
      (fun m => !(get_applied_migrations st).contains m.version) = [] := by
    rw [List.filter_eq_nil_iff]
    intro m hm
    have hmem : m.version ∈ get_applied_migrations st := by
      rw [get_applied_migrations]
      exact (List.perm_insertionSort _ _).mem_iff.mpr (happ m hm)
    simp [hmem]
  simp only [migrate_up, hdisc, hpend]
  rfl

/-- Witness for C6: reapplying over a database that already has version 100
applied, with only migration 100 on disk, changes nothing. -/
theorem second_migrate_up_noop_witness :
    migrate_up envOkS true ["100_init_up.sql".toList] none
      (⟨(), [(100, "init".toList)]⟩ : DbS Unit) =
      .ok ⟨[], ⟨(), [(100, "init".toList)]⟩, none⟩ :=
  second_migrate_up_noop Unit envOkS true ["100_init_up.sql".toList] [migS1]
    none ⟨(), [(100, "init".toList)]⟩ (by decide) (by decide)

theorem foldl_max_spec : ∀ (t : List Int) (acc : Int),
    acc ≤ t.foldl max acc ∧ (t.foldl max acc ∈ acc :: t) ∧
      ∀ v ∈ t, v ≤ t.foldl max acc := by
  intro t
  induction t with
  | nil =>
      intro acc
      exact ⟨le_refl _, List.mem_cons_self _ _,
        fun v hv => absurd hv (List.not_mem_nil v)⟩
  | cons b t ih =>
      intro acc
      simp only [List.foldl_cons]
      obtain ⟨h1, h2, h3⟩ := ih (max acc b)
      refine ⟨le_trans (le_max_left acc b) h1, ?_, ?_⟩
      · rcases List.mem_cons.mp h2 with h | h
        · rcases max_choice acc b with hm | hm
          · rw [h, hm]; exact List.mem_cons_self _ _
          · rw [h, hm]
            exact List.mem_cons_of_mem _ (List.mem_cons_self _ _)
        · exact List.mem_cons_of_mem _ (List.mem_cons_of_mem _ h)
      · intro v hv
        rcases List.mem_cons.mp hv with h | h
        · subst h
          exact le_trans (le_max_right _ _) h1
        · exact h3 v h

/-- C7.  `get_current_version` returns the maximum version among the applied
migrations when the applied set is non-empty, and 0 when it is empty. -/
theorem current_version_max_or_zero :
    ∀ (U : Type) (st : DbS U),
    (st.tracking ≠ [] →
      get_current_version st ∈ st.tracking.map Prod.fst ∧
      ∀ v ∈ st.tracking.map Prod.fst, v ≤ get_current_version st) ∧
    (st.tracking = [] → get_current_version st = 0) := by
  intro U st
  constructor
  · intro hne
    rcases htr : st.tracking with - | ⟨r, rows⟩
    · exact absurd htr hne
    · have hgc : get_current_version st = (rows.map Prod.fst).foldl max r.1 := by
        rw [get_current_version, htr]
        rfl
      obtain ⟨h1, h2, h3⟩ := foldl_max_spec (rows.map Prod.fst) r.1
      constructor
      · rw [hgc, List.map_cons]
        exact h2
      · intro v hv
        rw [List.map_cons] at hv
        rw [hgc]
        rcases List.mem_cons.mp hv with h | h
        · subst h
          exact h1
        · exact h3 v h
  · intro h
    rw [get_current_version, h]
    rfl

/-- Witness for C7: with versions 100, 300, 200 applied the current version
is their maximum, and on the empty table it is 0. -/
theorem current_version_max_or_zero_witness :
    (get_current_version
        (⟨(), [(100, "a".toList), (300, "c".toList), (200, "b".toList)]⟩ : DbS Unit) ∈
      ([(100, "a".toList), (300, "c".toList), (200, "b".toList)].map Prod.fst) ∧
      ∀ v ∈ ([(100, "a".toList), (300, "c".toList), (200, "b".toList)].map Prod.fst),
        v ≤ get_current_version
          (⟨(), [(100, "a".toList), (300, "c".toList), (200, "b".toList)]⟩ : DbS Unit)) ∧
    get_current_version (⟨(), []⟩ : DbS Unit) = 0 :=
  ⟨(current_version_max_or_zero Unit
      ⟨(), [(100, "a".toList), (300, "c".toList), (200, "b".toList)]⟩).1 (by decide),
   (current_version_max_or_zero Unit ⟨(), []⟩).2 rfl⟩

/-- C8.  When the matched filenames of a migrations directory contain two
complete migration groups with the same version, the current discovery
reports `MigrationError: duplicate version` instead of returning both
records. -/
theorem duplicate_version_discovery_error :
    ∀ (files : List (List Char)) (v : Int) (n1 n2 : List Char),
    n1 ≠ n2 →
    (v, n1) ∈ groupKeys files →
    (v, n2) ∈ groupKeys files →
    ((groupKeys files).all (groupComplete files)) = true →
    richDiscover files = .error (.migrationE "Duplicate migration version" none none) := by
  intro files v n1 n2 hne h1 h2 hall
  have hnodup : ¬ (((groupKeys files).map Prod.fst).Nodup) := by
    intro hnd
    exact hne (congrArg Prod.snd
      (List.inj_on_of_nodup_map hnd h1 h2 rfl))
  rw [richDiscover, if_pos hall, if_neg hnodup]

/-- Witness for C8: two complete pairs `100_a_*` and `100_b_*` sharing
version 100 make discovery fail with the duplicate-version error. -/
theorem duplicate_version_discovery_error_witness :
    richDiscover ["100_a_up.sql".toList, "100_a_down.sql".toList,
        "100_b_up.sql".toList, "100_b_down.sql".toList] =
      .error (.migrationE "Duplicate migration version" none none) :=
  duplicate_version_discovery_error
    ["100_a_up.sql".toList, "100_a_down.sql".toList,
      "100_b_up.sql".toList, "100_b_down.sql".toList]
    100 "a".toList "b".toList (by decide) (by decide) (by decide) (by decide)

theorem runDownS_all_ok {U : Type} (env : Env U) (ms : List Migration)
    (hrf : ∀ f, (env.readFile f).isSome)
    (hexec : ∀ s u, ∃ u', env.execSql s u = .ok u') :
    ∀ (l : List Int) (st : DbS U),
    (∀ v ∈ l, (migMapGet ms v).isSome) →
    (runDownS env ms l st).error = none ∧ (runDownS env ms l st).versions = l := by
  intro l
  induction l with
  | nil => intro st _; exact ⟨rfl, rfl⟩
  | cons v t ih =>
      intro st hmg
      obtain ⟨m, hm⟩ := Option.isSome_iff_exists.mp (hmg v (List.mem_cons_self v t))
      obtain ⟨sql, hsql⟩ := Option.isSome_iff_exists.mp (hrf m.down_file)
      obtain ⟨u', hu'⟩ := hexec sql st.user
      have htx : txDown env v sql st =
          .inl ⟨u', st.tracking.filter (fun r => !(r.1 == v))⟩ := by
        simp only [txDown, hu']
      rw [runDownS_cons_step env t hm hsql htx]
      simp only
      obtain ⟨h1, h2⟩ := ih _ (fun w hw => hmg w (List.mem_cons_of_mem v hw))
      exact ⟨h1, by rw [h2]⟩

/-- C10.  With `target=None` and `steps=0`, `migrate_down` rolls back every
applied migration, newest version first — `applied[-0:]` is the whole
applied list, not an empty slice. -/
theorem steps_zero_rolls_back_all :
    ∀ (U : Type) (env : Env U) (dirExists : Bool) (files : List (List Char))
      (ms : List Migration) (st : DbS U),
    _discover_migrations dirExists files = .ok ms →
    st.tracking ≠ [] →
    (∀ f, (env.readFile f).isSome) →
    (∀ s u, ∃ u', env.execSql s u = .ok u') →
    (∀ v ∈ st.tracking.map Prod.fst, (migMapGet ms v).isSome) →
    ∃ r, migrate_down env dirExists files none 0 st = .ok r ∧
      r.error = none ∧
      r.versions = (get_applied_migrations st).reverse ∧
      r.versions.Pairwise (fun a b => b ≤ a) ∧
      r.state.tracking = [] := by
  intro U env dirExists files ms st hdisc hne hrf hexec hmg
  have hpermA : (get_applied_migrations st).Perm (st.tracking.map Prod.fst) :=
    List.perm_insertionSort _ _
  have happne : get_applied_migrations st ≠ [] := by
    intro h
    rw [h] at hpermA
    have : st.tracking.map Prod.fst = [] := (hpermA.symm).eq_nil
    exact hne (List.map_eq_nil_iff.mp this)
  have hslice : pySliceFrom (get_applied_migrations st) (-(0 : Int)) =
      get_applied_migrations st := by
    rw [pySliceFrom]
    rw [if_neg (by omega)]
    have : min (-(0 : Int)) ((get_applied_migrations st).length : Int) = 0 := by
      have : (0 : Int) ≤ ((get_applied_migrations st).length : Int) := by positivity
      omega
    rw [this]
    rfl
  have hrevne : (get_applied_migrations st).reverse ≠ [] := by
    intro h
    exact happne (List.reverse_eq_nil_iff.mp h)
  have hdown : migrate_down env dirExists files none 0 st =
      .ok (runDownS env ms ((get_applied_migrations st).reverse) st) := by
    rw [migrate_down]
    rw [if_neg (by
      rw [Bool.not_eq_true, isEmpty_false_of_ne_nil happne])]
    simp only [hslice]
    rw [if_neg (by
      rw [Bool.not_eq_true, isEmpty_false_of_ne_nil hrevne])]
    simp only [hdisc]
  have hmg' : ∀ v ∈ (get_applied_migrations st).reverse, (migMapGet ms v).isSome := by
    intro v hv
    exact hmg v (hpermA.subset (List.mem_reverse.mp hv))
  obtain ⟨h1, h2⟩ := runDownS_all_ok env ms hrf hexec
    ((get_applied_migrations st).reverse) st hmg'
  refine ⟨runDownS env ms ((get_applied_migrations st).reverse) st, hdown, h1, h2, ?_, ?_⟩
  · rw [h2, List.pairwise_reverse]
    exact List.sorted_insertionSort (· ≤ ·) (st.tracking.map Prod.fst)
  · rw [runDownS_ok_tracking env ms _ st h1]
    rw [List.filter_eq_nil_iff]
    intro r hr
    have : r.1 ∈ (get_applied_migrations st).reverse := by
      rw [List.mem_reverse]
      exact hpermA.mem_iff.mpr (List.mem_map.mpr ⟨r, hr, rfl⟩)
    simp [this]

/-- Witness for C10: from applied {100, 200}, `migrate_down` with
`steps = 0` rolls back `[200, 100]` and empties the tracking table. -/
theorem steps_zero_rolls_back_all_witness :
    ∃ r, migrate_down envOkS true
        ["100_init_up.sql".toList, "200_posts_up.sql".toList] none 0
        (⟨(), [(100, "init".toList), (200, "posts".toList)]⟩ : DbS Unit) = .ok r ∧
      r.error = none ∧
      r.versions = (get_applied_migrations
        (⟨(), [(100, "init".toList), (200, "posts".toList)]⟩ : DbS Unit)).reverse ∧
      r.versions.Pairwise (fun a b => b ≤ a) ∧
      r.state.tracking = [] :=
  steps_zero_rolls_back_all Unit envOkS true
    ["100_init_up.sql".toList, "200_posts_up.sql".toList] [migS1, migS2]
    ⟨(), [(100, "init".toList), (200, "posts".toList)]⟩
    (by decide) (by decide) (fun f => rfl) (fun _ u => ⟨u, rfl⟩) (by decide)

end Pgfast